import Mathlib

/-!
Verification development for the `sd-metadata` Stable Diffusion metadata
viewer (`streamlit_app.py`).

The program is embedded shallowly:

* Python strings are `List Char` (`Str`), Python bytes are `List Nat`.
* Python dicts are association lists with dict semantics (`insertOrUpdate`
  updates the value of an existing key in place, otherwise appends; this is
  exactly CPython's insertion-ordered dict behaviour).
* The two regular expressions (`RGX_LABEL` and the lookahead pattern of
  `parse_no_prompt_label`) are embedded by implementing the deterministic
  matching procedure the `re` module performs on these particular patterns:
  leftmost-first alternation, greedy `\s*`, lazy `.*?` bounded by a
  lookahead, `$` matching at the end of the string or just before a final
  newline, and `re.finditer`'s non-overlapping left-to-right scan.
* External library calls (PIL `Image.open`, `piexif`) are collaborators:
  their outcomes are passed to `extract_sd_meta` as data (`PyImage`,
  `ExifOutcome`), faithfully reproducing the branching of the source.
-/

/-- Python `str` values, modelled as lists of characters. -/
abbrev Str := List Char

/-- Python dicts from `str` to `str`, modelled as insertion-ordered
association lists (keys unique whenever the list was built by dict
operations). -/
abbrev PyDict := List (Str × Str)

/-- `d[k] = v` on a Python dict: update the value of an existing key in
place (keeping its position in insertion order), otherwise append the new
binding at the end. -/
def insertOrUpdate : PyDict → Str → Str → PyDict
  | [], k, v => [(k, v)]
  | p :: rest, k, v => if p.1 = k then (k, v) :: rest else p :: insertOrUpdate rest k v

/-- `d.update(other)` on Python dicts: fold `insertOrUpdate` over the
entries of `other` in order. -/
def dictUpdate (base other : PyDict) : PyDict :=
  other.foldl (fun acc p => insertOrUpdate acc p.1 p.2) base

/-- `d.get(k)` / `d[k]` lookup on the association-list model. -/
def alookup (k : Str) : PyDict → Option Str
  | [] => none
  | p :: rest => if p.1 = k then some p.2 else alookup k rest

/-- Python `\s` character class (ASCII part, which is all the program's
label grammar and test data use). -/
def pyIsSpace (c : Char) : Bool :=
  c = ' ' || c = '\t' || c = '\n' || c = '\r' || c = '\x0b' || c = '\x0c'

/-- `str.lower()` (ASCII). -/
def pyLower (s : Str) : Str := s.map Char.toLower

/-- `str.strip()`: drop leading and trailing whitespace. -/
def pyStrip (s : Str) : Str :=
  ((s.dropWhile pyIsSpace).reverse.dropWhile pyIsSpace).reverse

/-- ASCII letter test, used by `pyTitle` for Python's notion of a cased
character. -/
def pyIsAlpha (c : Char) : Bool :=
  ('a' ≤ c && c ≤ 'z') || ('A' ≤ c && c ≤ 'Z')

/-- Helper for `str.title()`: the Bool records whether the previous
character was cased. -/
def pyTitleAux : Bool → Str → Str
  | _, [] => []
  | prev, c :: cs =>
    (if pyIsAlpha c then (if prev then Char.toLower c else Char.toUpper c) else c)
      :: pyTitleAux (pyIsAlpha c) cs

/-- `str.title()` (ASCII): uppercase a letter that follows a non-letter,
lowercase a letter that follows a letter. -/
def pyTitle (s : Str) : Str := pyTitleAux false s

/-- Case-insensitive "the pattern token `pat` matches at the start of
`l`", i.e. `re.IGNORECASE` literal matching (ASCII case folding via
`Char.toLower`, as CPython does for ASCII letters). -/
def ciStartsWith : Str → Str → Bool
  | [], _ => true
  | _ :: _, [] => false
  | c :: cs, d :: ds => (Char.toLower c == Char.toLower d) && ciStartsWith cs ds

/-- Token `pat` matches (case-insensitively) in `s` at position `i`. -/
def matchesCI (pat : Str) (s : Str) (i : Nat) : Bool :=
  ciStartsWith pat (s.drop i)

/-- The alternation of the `label` group of `RGX_LABEL`, in the order the
pattern lists it (Python alternation is leftmost-first). -/
def LABELS_RE : List Str :=
  ["Prompt", "Negative prompt", "Steps", "Sampler", "CFG scale",
   "Seed", "Size", "Model hash", "Model", "Version"].map String.data

/-- The alternation inside the lookahead of `RGX_LABEL` (the value
terminators): eight labels each followed by a colon, then the bare tokens
`Model` and `Version` (the source's asymmetric-terminator quirk); `$` is
handled separately by `dollarAt`. -/
def TERMS : List Str :=
  ["Prompt:", "Negative prompt:", "Steps:", "Sampler:", "CFG scale:",
   "Seed:", "Size:", "Model hash:", "Model", "Version"].map String.data

/-- Length of the maximal run of whitespace in `s` starting at the head of
the list (used to evaluate a greedy `\s*`). -/
def wsCount : Str → Nat
  | [] => 0
  | c :: t => if pyIsSpace c then wsCount t + 1 else 0

/-- Length of the maximal whitespace run of `s` starting at position `i`. -/
def wsRun (s : Str) (i : Nat) : Nat := wsCount (s.drop i)

/-- One of the lookahead terminator tokens matches at position `q`. -/
def termAt (s : Str) (q : Nat) : Bool :=
  TERMS.any (fun t => matchesCI t s q)

/-- Python `$` without `re.MULTILINE`: matches at the end of the string,
or just before a newline that ends the string. -/
def dollarAt (s : Str) (q : Nat) : Bool :=
  q == s.length || (q + 1 == s.length && s.get? q == some '\n')

/-- The lookahead `(?=\s*(?:TERMS|$))` of `RGX_LABEL` succeeds at
position `p`: some prefix of the whitespace run at `p` can be consumed so
that a terminator token or `$` matches right after it. -/
def lookAt (s : Str) (p : Nat) : Bool :=
  (List.range (wsRun s p + 1)).any (fun w => termAt s (p + w) || dollarAt s (p + w))

/-- Smallest `b ≥ a` with `f b = true`, searched for `n` further steps
(returns `a + n` if none is found; always applied with enough fuel). -/
def scanMin (f : Nat → Bool) : Nat → Nat → Nat
  | a, 0 => a
  | a, n + 1 => if f a then a else scanMin f (a + 1) n

/-- End position of the lazy `(?P<value>.*?)` group started at `j`: the
smallest position `≥ j` at which the lookahead succeeds.  (It always
succeeds at the end of the string via `$`.) -/
def valueEnd (s : Str) (j : Nat) : Nat :=
  scanMin (lookAt s) j (s.length + 1 - j)

/-- A match of `RGX_LABEL`: start position, length of the `label` group
(the colon sits at `start + labelLen`), and the span of the `value`
group. -/
structure PyMatch where
  start : Nat
  labelLen : Nat
  vstart : Nat
  vend : Nat
deriving DecidableEq

/-- `s[a:b]` slice of a list. -/
def sliceL (s : Str) (a b : Nat) : Str := (s.drop a).take (b - a)

/-- Attempt to match `RGX_LABEL` at position `i` of `s`: leftmost-first
alternation over the label group (each alternative must be followed by a
colon), then the greedy `\s*`, then the lazy value bounded by the
lookahead. -/
def matchAt (s : Str) (i : Nat) : Option PyMatch :=
  match LABELS_RE.find? (fun L => matchesCI L s i && (s.get? (i + L.length) == some ':')) with
  | none => none
  | some L =>
    let j := i + L.length + 1
    let j2 := j + wsRun s j
    some { start := i, labelLen := L.length, vstart := j2, vend := valueEnd s j2 }

/-- Text of the `label` group of a match (original case, from the input). -/
def labelRaw (s : Str) (m : PyMatch) : Str := sliceL s m.start (m.start + m.labelLen)

/-- Text of the `value` group of a match. -/
def valueRaw (s : Str) (m : PyMatch) : Str := sliceL s m.vstart m.vend

/-- `re.finditer` scan: try each position left to right; after a match,
resume at its end (matches here are never zero-width).  Fuel
`s.length + 2` suffices because the scan position strictly increases and
stops once it passes the end of the string. -/
def finditerAux (s : Str) : Nat → Nat → List PyMatch
  | _, 0 => []
  | i, fuel + 1 =>
    if s.length < i then []
    else
      match matchAt s i with
      | some m => m :: finditerAux s m.vend fuel
      | none => finditerAux s (i + 1) fuel

/-- All matches of `RGX_LABEL` in `s`, in order. -/
def py_finditer (s : Str) : List PyMatch := finditerAux s 0 (s.length + 2)

/-- Canonicalization of a matched label performed by `parse_labeled`
(`key_lower` dispatch; default branch is `label_raw.title()`). -/
def canonKey (label_raw : Str) : Str :=
  let key_lower := pyLower label_raw
  if key_lower = "cfg scale".data then "CFG Scale".data
  else if key_lower = "negative prompt".data then "Negative Prompt".data
  else if key_lower = "model hash".data then "Model hash".data
  else pyTitle label_raw

/-- The `(key, value)` pairs produced, in match order, by the loop body of
`parse_labeled`: stripped label canonicalized, stripped value. -/
def canonPairs (s : Str) : List (Str × Str) :=
  (py_finditer s).map (fun m => (canonKey (pyStrip (labelRaw s m)), pyStrip (valueRaw s m)))

/-- `parse_labeled`: fold the matches into a dict. -/
def py_parse_labeled (text : Str) : PyDict :=
  (canonPairs text).foldl (fun res p => insertOrUpdate res p.1 p.2) []

/-- The alternation of `parse_no_prompt_label`'s lookahead pattern:
`LABELS[1:]` (labels other than `Prompt:`, colons included). -/
def NEXT_LABELS : List Str :=
  ["Negative prompt:", "Steps:", "Sampler:", "CFG scale:", "Seed:",
   "Size:", "Model hash:", "Model:", "Version:"].map String.data

/-- `re.search` of `parse_no_prompt_label`'s pattern
`(?=(Negative prompt:|...|Version:) )` (case-insensitive): the earliest
position at which one of the non-Prompt labels, followed by a literal
space, occurs. -/
def nextLabelPos (s : Str) : Option Nat :=
  (List.range (s.length + 1)).find?
    (fun p => NEXT_LABELS.any (fun t => matchesCI t s p && (s.get? (p + t.length) == some ' ')))

/-- `parse_no_prompt_label`: if no non-Prompt label (followed by a space)
occurs, the whole stripped text becomes `Prompt`; otherwise the stripped
head becomes `Prompt` (only if non-empty) and the stripped rest is run
through `parse_labeled` and merged in. -/
def py_parse_no_prompt_label (raw_text : Str) : PyDict :=
  match nextLabelPos raw_text with
  | none => [("Prompt".data, pyStrip raw_text)]
  | some p =>
    let prompt_text := pyStrip (raw_text.take p)
    let rest_text := pyStrip (raw_text.drop p)
    let d : PyDict := if prompt_text ≠ [] then [("Prompt".data, prompt_text)] else []
    dictUpdate d (py_parse_labeled rest_text)

/-- `parse_sd_text`.  Note the guard is embedded exactly as written in the
source: the membership test compares the literal `"Prompt"` (capital P)
against the *lowercased* keys, so it can never succeed and the
no-prompt-label branch is always taken. -/
def py_parse_sd_text (raw_text : Str) : PyDict :=
  let data := py_parse_labeled raw_text
  let data :=
    if "Prompt".data ∈ data.map (fun k => pyLower k.1) then data
    else py_parse_no_prompt_label raw_text
  insertOrUpdate data "RawSnippet".data raw_text

/-- Continuation byte test `0x80 ≤ b ≤ 0xBF`. -/
def utf8Cont (b : Nat) : Bool := 0x80 ≤ b && b ≤ 0xBF

/-- Valid second-byte range of a three-byte sequence (UTF-8 excludes
overlong encodings after `0xE0` and surrogates after `0xED`). -/
def utf8Cont3 (b c : Nat) : Bool :=
  (if b == 0xE0 then 0xA0 else 0x80) ≤ c && c ≤ (if b == 0xED then 0x9F else 0xBF)

/-- Valid second-byte range of a four-byte sequence. -/
def utf8Cont4 (b c : Nat) : Bool :=
  (if b == 0xF0 then 0x90 else 0x80) ≤ c && c ≤ (if b == 0xF4 then 0x8F else 0xBF)

/-- Fuel-indexed UTF-8 decoder with CPython's `ignore` error handler:
every maximal invalid subsequence is silently dropped (an invalid start
byte is skipped; a truncated or broken multi-byte sequence is skipped up
to, but not including, the byte that broke it).  Every step consumes at
least one byte, so fuel equal to the list length is exact. -/
def utf8IgnoreAux : Nat → List Nat → List Char
  | 0, _ => []
  | _, [] => []
  | fuel + 1, b :: t =>
    if b < 0x80 then Char.ofNat b :: utf8IgnoreAux fuel t
    else if 0xC2 ≤ b && b ≤ 0xDF then
      match t with
      | [] => []
      | c1 :: t1 =>
        if utf8Cont c1 then Char.ofNat ((b - 0xC0) * 64 + (c1 - 0x80)) :: utf8IgnoreAux fuel t1
        else utf8IgnoreAux fuel (c1 :: t1)
    else if 0xE0 ≤ b && b ≤ 0xEF then
      match t with
      | [] => []
      | c1 :: t1 =>
        if utf8Cont3 b c1 then
          match t1 with
          | [] => []
          | c2 :: t2 =>
            if utf8Cont c2 then
              Char.ofNat ((b - 0xE0) * 4096 + (c1 - 0x80) * 64 + (c2 - 0x80))
                :: utf8IgnoreAux fuel t2
            else utf8IgnoreAux fuel (c2 :: t2)
        else utf8IgnoreAux fuel (c1 :: t1)
    else if 0xF0 ≤ b && b ≤ 0xF4 then
      match t with
      | [] => []
      | c1 :: t1 =>
        if utf8Cont4 b c1 then
          match t1 with
          | [] => []
          | c2 :: t2 =>
            if utf8Cont c2 then
              match t2 with
              | [] => []
              | c3 :: t3 =>
                if utf8Cont c3 then
                  Char.ofNat ((b - 0xF0) * 262144 + (c1 - 0x80) * 4096 +
                      (c2 - 0x80) * 64 + (c3 - 0x80)) :: utf8IgnoreAux fuel t3
                else utf8IgnoreAux fuel (c3 :: t3)
            else utf8IgnoreAux fuel (c2 :: t2)
        else utf8IgnoreAux fuel (c1 :: t1)
    else utf8IgnoreAux fuel t

/-- `bytes.decode("utf-8", errors="ignore")`. -/
def utf8Ignore (l : List Nat) : List Char := utf8IgnoreAux l.length l

/-- Fuel-indexed UTF-8 decoder with the `replace` error handler: like
`utf8IgnoreAux` but every dropped invalid subsequence instead yields the
placeholder character U+FFFD. -/
def utf8ReplaceAux : Nat → List Nat → List Char
  | 0, _ => []
  | _, [] => []
  | fuel + 1, b :: t =>
    if b < 0x80 then Char.ofNat b :: utf8ReplaceAux fuel t
    else if 0xC2 ≤ b && b ≤ 0xDF then
      match t with
      | [] => ['�']
      | c1 :: t1 =>
        if utf8Cont c1 then Char.ofNat ((b - 0xC0) * 64 + (c1 - 0x80)) :: utf8ReplaceAux fuel t1
        else '�' :: utf8ReplaceAux fuel (c1 :: t1)
    else if 0xE0 ≤ b && b ≤ 0xEF then
      match t with
      | [] => ['�']
      | c1 :: t1 =>
        if utf8Cont3 b c1 then
          match t1 with
          | [] => ['�']
          | c2 :: t2 =>
            if utf8Cont c2 then
              Char.ofNat ((b - 0xE0) * 4096 + (c1 - 0x80) * 64 + (c2 - 0x80))
                :: utf8ReplaceAux fuel t2
            else '�' :: utf8ReplaceAux fuel (c2 :: t2)
        else '�' :: utf8ReplaceAux fuel (c1 :: t1)
    else if 0xF0 ≤ b && b ≤ 0xF4 then
      match t with
      | [] => ['�']
      | c1 :: t1 =>
        if utf8Cont4 b c1 then
          match t1 with
          | [] => ['�']
          | c2 :: t2 =>
            if utf8Cont c2 then
              match t2 with
              | [] => ['�']
              | c3 :: t3 =>
                if utf8Cont c3 then
                  Char.ofNat ((b - 0xF0) * 262144 + (c1 - 0x80) * 4096 +
                      (c2 - 0x80) * 64 + (c3 - 0x80)) :: utf8ReplaceAux fuel t3
                else '�' :: utf8ReplaceAux fuel (c3 :: t3)
            else '�' :: utf8ReplaceAux fuel (c2 :: t2)
        else '�' :: utf8ReplaceAux fuel (c1 :: t1)
    else '�' :: utf8ReplaceAux fuel t

/-- `bytes.decode("utf-8", errors="replace")`: what the spec describes
for the fallback decode ("replacing any byte sequence that cannot be
decoded with a placeholder").  Spec-side definition, for comparison with
the source's `errors="ignore"` decode only. -/
def utf8Replace (l : List Nat) : List Char := utf8ReplaceAux l.length l

/-- `fallback_search`: lossily decode the entire raw byte content,
dropping undecodable byte sequences (`errors="ignore"`). -/
def py_fallback_search (bdata : List Nat) : Str := utf8Ignore bdata

/-- What the spec describes for the fallback decode: replace undecodable
byte sequences with a placeholder.  Spec-side definition, for comparison
with `py_fallback_search` only. -/
def py_fallback_search_spec (bdata : List Nat) : Str := utf8Replace bdata

/-- Outcome of the `piexif` collaborator calls inside
`extract_exif_usercomment`.  `piexif` is an external library, so its
behaviour is passed in as data:

* `noExifKey` — `"exif" not in img.info`;
* `loadFails` — `piexif.load` raises (malformed EXIF block);
* `noUserComment` — the loaded dict has no (truthy) `UserComment` entry;
* `ucLoaded s` — `piexif.helper.UserComment.load` succeeds with `s`;
* `ucLoadFails raw` — the helper raises (malformed UserComment, e.g.
  unknown encoding prefix); the source then falls back to
  `uc.decode("utf-8", errors="ignore")` on the raw bytes `raw`. -/
inductive ExifOutcome where
  | noExifKey : ExifOutcome
  | loadFails : ExifOutcome
  | noUserComment : ExifOutcome
  | ucLoaded : Str → ExifOutcome
  | ucLoadFails : List Nat → ExifOutcome
deriving DecidableEq

/-- `extract_exif_usercomment`: total — every library failure is caught
and turned into `""` or the lossy decode; nothing propagates. -/
def extract_exif_usercomment : ExifOutcome → Str
  | .noExifKey => []
  | .loadFails => []
  | .noUserComment => []
  | .ucLoaded s => s
  | .ucLoadFails raw => utf8Ignore raw

/-- The PIL image object as `extract_sd_meta` observes it: its `format`,
the results of the two `isinstance` checks and the `hasattr(img, "text")`
check, the textual parts of `img.info` and `img.text`, and the outcome of
the EXIF collaborator calls. -/
structure PyImage where
  format : Str
  isPngFile : Bool
  isWebpFile : Bool
  hasTextAttr : Bool
  info : PyDict
  text : PyDict
  exif : ExifOutcome
deriving DecidableEq

/-- The `details` dict built at the top of `extract_sd_meta` (lines
93-99 of the source). -/
def detailsOf (img : PyImage) : PyDict :=
  let d : PyDict := []
  let d := if img.format = "PNG".data ∨ img.format = "WEBP".data then dictUpdate d img.info else d
  let d := if img.isPngFile then dictUpdate d img.text else d
  if img.isWebpFile && img.hasTextAttr then dictUpdate d img.text else d

/-- `pillow_str = details.get("parameters", "")`. -/
def pillowStrOf (img : PyImage) : Str :=
  (alookup "parameters".data (detailsOf img)).getD []

/-- `exif_str`: read the EXIF UserComment only for WEBP images. -/
def exifStrOf (img : PyImage) : Str :=
  if img.format = "WEBP".data then extract_exif_usercomment img.exif else []

/-- `extract_sd_meta`.  `opened` is the outcome of `Image.open` (the only
failure that aborts the pipeline: it yields the `error` record);
`bdata` is the raw byte content, used by the fallback scan. -/
def extract_sd_meta (opened : Except Str PyImage) (bdata : List Nat) : PyDict :=
  match opened with
  | .error e => insertOrUpdate [] "error".data e
  | .ok img =>
    let meta0 := insertOrUpdate [] "format".data img.format
    let pillow_str := pillowStrOf img
    let exif_str := exifStrOf img
    if pillow_str ≠ [] then
      dictUpdate (insertOrUpdate meta0 "foundIn".data "Pillow info/text".data)
        (py_parse_sd_text pillow_str)
    else if exif_str ≠ [] then
      dictUpdate (insertOrUpdate meta0 "foundIn".data "Exif UserComment".data)
        (py_parse_sd_text exif_str)
    else
      dictUpdate (insertOrUpdate meta0 "foundIn".data "Fallback".data)
        (py_parse_sd_text (py_fallback_search bdata))

/-- The fixed canonical display order used by the presenter (`order` in
`main`). -/
def CANON_ORDER : List Str :=
  ["Prompt", "Negative Prompt", "Steps", "Sampler", "CFG Scale",
   "Seed", "Size", "Model hash", "Model", "Version"].map String.data

/-- One iteration of the presenter's outer loop: case-insensitively find
the first key of the remaining map matching the canonical label `k`, move
its value into the display dict under the canonical spelling `k`, and
remove that entry from the map. -/
def presentStep (st : PyDict × PyDict) (k : Str) : PyDict × PyDict :=
  match st.2.find? (fun p => pyLower p.1 == pyLower k) with
  | some pr => (insertOrUpdate st.1 k pr.2, st.2.eraseP (fun q => q.1 == pr.1))
  | none => st

/-- The presenter (lines 171-180 of `main`): walk `CANON_ORDER`, then
append whatever is left of the input map (`display_dict.update(meta)`) in
its original insertion order. -/
def presentOrder (meta : PyDict) : PyDict :=
  let st := CANON_ORDER.foldl presentStep ([], meta)
  dictUpdate st.1 st.2

/-- The terminator set exactly as claim C5 words it: "the next occurrence
of any recognized label followed by a colon, or of the bare token `Model`
or `Version` without a colon".  Spec-side definition, to be compared with
the behaviour of `RGX_LABEL`'s lookahead. -/
def claimTermAt (s : Str) (q : Nat) : Bool :=
  LABELS_RE.any (fun L => matchesCI (L ++ [':']) s q) ||
  matchesCI "Model".data s q || matchesCI "Version".data s q

/-- Position at which, per claim C5, a value started at `j` ends: the
next occurrence of a terminator, or the end of the string.  Spec-side
definition. -/
def claimEnd (s : Str) (j : Nat) : Nat :=
  scanMin (fun q => claimTermAt s q || q == s.length) j (s.length + 1 - j)

/-- Drop from `l` every element of `seen` and every repeated occurrence,
keeping first occurrences in order. -/
def dedupFirstAux (seen : List Str) : List Str → List Str
  | [] => []
  | k :: t => if k ∈ seen then dedupFirstAux seen t else k :: dedupFirstAux (k :: seen) t

/-- Keep the first occurrence of every element, in order (the insertion
order of keys a Python dict ends up with after repeated assignments). -/
def dedupFirst (l : List Str) : List Str := dedupFirstAux [] l

/-- Number of occurrences of `k` in a list of keys. -/
def countKey (k : Str) (l : List Str) : Nat := (l.filter (fun x => x = k)).length

/-- Entry predicate "the key differs from `k`" (what popping key `k` from
a dict with unique keys leaves behind). -/
def keyNe (k : Str) : Str × Str → Bool := fun q => !decide (q.1 = k)

/-- Entry predicate "the key is outside `os`". -/
def keyNotIn (os : List Str) : Str × Str → Bool := fun q => !decide (q.1 ∈ os)

/-- Entry predicate "the key equals `u`". -/
def keyEq (u : Str) : Str × Str → Bool := fun q => decide (q.1 = u)

/-- A token is non-empty and starts with a character whose lowercase form
is not whitespace (true of every terminator token of the label grammar). -/
def tokHeadOK : Str → Bool
  | [] => false
  | c :: _ => !pyIsSpace (Char.toLower c)

/-- The `parameters` text of the spec's §8 PNG test vector. -/
def C2S : Str := "Prompt: a cat\nNegative prompt: blurry\nSteps: 20".data

/-- A PNG image whose `parameters` text property is `C2S` (test vector of
claim C2). -/
def c2img : PyImage :=
  { format := "PNG".data, isPngFile := true, isWebpFile := false, hasTextAttr := false,
    info := [], text := [("parameters".data, C2S)], exif := .noExifKey }

/-- A WEBP image carrying both a non-empty `parameters` property and a
non-empty EXIF UserComment (precedence test vector of claim C4). -/
def c4img : PyImage :=
  { format := "WEBP".data, isPngFile := false, isWebpFile := true, hasTextAttr := true,
    info := [], text := [("parameters".data, "Steps: 7".data)], exif := .ucLoaded "exif text".data }

/-- A PNG image with no metadata at all (fallback test vector of claim
C7). -/
def c7img : PyImage :=
  { format := "PNG".data, isPngFile := true, isWebpFile := false, hasTextAttr := false,
    info := [], text := [], exif := .noExifKey }

/-- A WEBP image with no `parameters` property whose EXIF block is
malformed (`piexif.load` raises) — test vector of claim C8. -/
def c8img : PyImage :=
  { format := "WEBP".data, isPngFile := false, isWebpFile := true, hasTextAttr := false,
    info := [], text := [], exif := .loadFails }

/-- A WEBP image with no `parameters` property whose EXIF UserComment is
present but malformed (the `piexif.helper` decode raises on the unknown
prefix of the raw bytes `b"XYZ"`) — counterexample vector of claim C8. -/
def c8badUC : PyImage :=
  { format := "WEBP".data, isPngFile := false, isWebpFile := true, hasTextAttr := false,
    info := [], text := [], exif := .ucLoadFails [88, 89, 90] }

/-- Field map used as the C9 witness: two canonical labels (out of
canonical order) around one unrecognized key. -/
def c9meta : PyDict :=
  [("Steps".data, "20".data), ("Foo".data, "bar".data), ("Prompt".data, "hi".data)]

/-! ### Association-list dict lemmas -/

theorem alookup_insertOrUpdate (m : PyDict) (k k' v : Str) :
    alookup k' (insertOrUpdate m k v) = if k = k' then some v else alookup k' m := by
  induction m with
  | nil =>
    by_cases h : k = k' <;> simp [insertOrUpdate, alookup, h]
  | cons p rest ih =>
    by_cases h : p.1 = k
    · by_cases h2 : k = k' <;> simp [insertOrUpdate, alookup, h, h2]
    · by_cases h1 : p.1 = k' <;> by_cases h2 : k = k'
      · exact absurd (h1.trans h2.symm) h
      · have hne : ¬ k' = k := fun hh => h2 hh.symm
        simp [insertOrUpdate, alookup, h, h1, h2, hne]
      · subst h2
        simp [insertOrUpdate, alookup, h, h1, ih]
      · simp [insertOrUpdate, alookup, h, h1, h2, ih]

theorem alookup_insertOrUpdate_self (m : PyDict) (k v : Str) :
    alookup k (insertOrUpdate m k v) = some v := by
  simp [alookup_insertOrUpdate]

theorem mem_insertOrUpdate_self (m : PyDict) (k v : Str) : (k, v) ∈ insertOrUpdate m k v := by
  induction m with
  | nil => simp [insertOrUpdate]
  | cons p rest ih => by_cases h : p.1 = k <;> simp [insertOrUpdate, h, ih]

theorem map_fst_insertOrUpdate (m : PyDict) (k v : Str) :
    (insertOrUpdate m k v).map Prod.fst =
      if k ∈ m.map Prod.fst then m.map Prod.fst else m.map Prod.fst ++ [k] := by
  induction m with
  | nil => simp [insertOrUpdate]
  | cons p rest ih =>
    by_cases h : p.1 = k
    · simp [insertOrUpdate, h]
    · have hne : ¬ k = p.1 := fun hh => h hh.symm
      by_cases h2 : k ∈ rest.map Prod.fst <;>
        simp [insertOrUpdate, h, ih, h2, hne]

theorem alookup_append (l1 l2 : PyDict) (k : Str) :
    alookup k (l1 ++ l2) =
      match alookup k l1 with
      | some v => some v
      | none => alookup k l2 := by
  induction l1 with
  | nil => simp [alookup]
  | cons p rest ih => by_cases h : p.1 = k <;> simp [alookup, h, ih]

theorem alookup_dictUpdate (ps : PyDict) : ∀ (m : PyDict) (k : Str),
    alookup k (dictUpdate m ps) =
      match alookup k ps.reverse with
      | some v => some v
      | none => alookup k m := by
  induction ps with
  | nil => intro m k; simp [dictUpdate, alookup]
  | cons p tl ih =>
    intro m k
    have step : dictUpdate m (p :: tl) = dictUpdate (insertOrUpdate m p.1 p.2) tl := rfl
    rw [step, ih, List.reverse_cons, alookup_append, alookup_insertOrUpdate]
    by_cases h : p.1 = k <;>
      cases htl : alookup k tl.reverse <;> simp [alookup, h, htl]

theorem dedupFirstAux_congr : ∀ (t s1 s2 : List Str),
    (∀ x, x ∈ s1 ↔ x ∈ s2) → dedupFirstAux s1 t = dedupFirstAux s2 t := by
  intro t
  induction t with
  | nil => intro s1 s2 _; rfl
  | cons k tl ih =>
    intro s1 s2 hiff
    by_cases h : k ∈ s1
    · simp [dedupFirstAux, h, (hiff k).mp h, ih _ _ hiff]
    · have h2 : k ∉ s2 := fun hh => h ((hiff k).mpr hh)
      have hiff2 : ∀ x, x ∈ k :: s1 ↔ x ∈ k :: s2 := by
        intro x; simp [hiff x]
      simp [dedupFirstAux, h, h2, ih _ _ hiff2]

theorem mem_dedupFirstAux : ∀ (t seen : List Str) (x : Str),
    x ∈ dedupFirstAux seen t ↔ x ∈ t ∧ x ∉ seen := by
  intro t
  induction t with
  | nil => intro seen x; simp [dedupFirstAux]
  | cons k tl ih =>
    intro seen x
    by_cases h : k ∈ seen
    · rw [dedupFirstAux, if_pos h, ih]
      constructor
      · rintro ⟨hx, hns⟩; exact ⟨List.mem_cons_of_mem _ hx, hns⟩
      · rintro ⟨hx, hns⟩
        rcases List.mem_cons.mp hx with rfl | hx'
        · exact absurd h hns
        · exact ⟨hx', hns⟩
    · rw [dedupFirstAux, if_neg h]
      constructor
      · intro hx
        rcases List.mem_cons.mp hx with rfl | hx'
        · exact ⟨List.mem_cons_self _ _, h⟩
        · rcases (ih _ _).mp hx' with ⟨ht, hs⟩
          exact ⟨List.mem_cons_of_mem _ ht, fun hh => hs (List.mem_cons_of_mem _ hh)⟩
      · rintro ⟨hx, hns⟩
        rcases List.mem_cons.mp hx with rfl | hx'
        · exact List.mem_cons_self _ _
        · by_cases hxk : x = k
          · subst hxk; exact List.mem_cons_self _ _
          · exact List.mem_cons_of_mem _
              ((ih _ _).mpr ⟨hx', by simp [hxk, hns]⟩)

theorem dedupFirstAux_nodup : ∀ (t seen : List Str), (dedupFirstAux seen t).Nodup := by
  intro t
  induction t with
  | nil => intro seen; simp [dedupFirstAux]
  | cons k tl ih =>
    intro seen
    by_cases h : k ∈ seen
    · simpa [dedupFirstAux, h] using ih seen
    · rw [dedupFirstAux, if_neg h]
      refine List.nodup_cons.mpr ⟨?_, ih _⟩
      intro hk
      exact ((mem_dedupFirstAux _ _ _).mp hk).2 (List.mem_cons_self _ _)

theorem map_fst_dictUpdate (ps : PyDict) : ∀ (m : PyDict),
    (dictUpdate m ps).map Prod.fst =
      m.map Prod.fst ++ dedupFirstAux (m.map Prod.fst) (ps.map Prod.fst) := by
  induction ps with
  | nil => intro m; simp [dictUpdate, dedupFirstAux]
  | cons p tl ih =>
    intro m
    have step : dictUpdate m (p :: tl) = dictUpdate (insertOrUpdate m p.1 p.2) tl := rfl
    rw [step, ih, map_fst_insertOrUpdate]
    by_cases h : p.1 ∈ m.map Prod.fst
    · simp only [if_pos h, List.map_cons, dedupFirstAux, h, if_pos]
    · rw [if_neg h]
      have hcongr := dedupFirstAux_congr (tl.map Prod.fst)
        (m.map Prod.fst ++ [p.1]) (p.1 :: m.map Prod.fst)
        (by intro x; simp [or_comm])
      simp only [List.map_cons, dedupFirstAux, h, if_neg, List.append_assoc,
        List.singleton_append, hcongr]
      simp [dedupFirstAux, h]

theorem countKey_eq_zero_of_not_mem {k : Str} {l : List Str} (h : k ∉ l) :
    countKey k l = 0 := by
  induction l with
  | nil => rfl
  | cons a t ih =>
    have hka : ¬ a = k := fun hh => h (hh ▸ List.mem_cons_self _ _)
    have ht : k ∉ t := fun hh => h (List.mem_cons_of_mem _ hh)
    simp [countKey, List.filter, hka] at ih ⊢
    exact ih ht

theorem countKey_eq_one_of_nodup {k : Str} {l : List Str} (hn : l.Nodup) (hm : k ∈ l) :
    countKey k l = 1 := by
  induction l with
  | nil => cases hm
  | cons a t ih =>
    rcases List.nodup_cons.mp hn with ⟨hna, hnt⟩
    rcases List.mem_cons.mp hm with rfl | hmt
    · have : countKey k t = 0 := countKey_eq_zero_of_not_mem hna
      simp [countKey, List.filter] at this ⊢
      exact this
    · have hka : ¬ a = k := fun hh => hna (hh ▸ hmt)
      simp [countKey, List.filter, hka] at ih ⊢
      exact ih hnt hmt

theorem mem_of_countKey_pos {k : Str} {l : List Str} (h : 1 ≤ countKey k l) : k ∈ l := by
  by_contra hnm
  rw [countKey_eq_zero_of_not_mem hnm] at h
  exact Nat.not_succ_le_zero 0 h

/-! ### Claim theorems -/

/-- C1 (code bug): the guard on line 66 of the source,
`if "Prompt" not in [k.lower() for k in data.keys()]`, compares the
capitalized literal `"Prompt"` against *lowercased* keys, so it is always
true and the no-prompt heuristic always replaces the primary result.
Here the primary result of `parse_labeled` does contain the key `Prompt`
(so per the claim the output should equal the primary result plus
`RawSnippet`), yet the pipeline discards it and returns the heuristic's
result instead. -/
theorem parse_sd_text_guard_bug_eval :
    py_parse_labeled "Prompt: hi".data = [("Prompt".data, "hi".data)] ∧
    "prompt".data ∈ (py_parse_labeled "Prompt: hi".data).map (fun p => pyLower p.1) ∧
    py_parse_sd_text "Prompt: hi".data =
      [("Prompt".data, "Prompt: hi".data), ("RawSnippet".data, "Prompt: hi".data)] ∧
    py_parse_sd_text "Prompt: hi".data ≠
      insertOrUpdate (py_parse_labeled "Prompt: hi".data) "RawSnippet".data
        "Prompt: hi".data := by
  refine ⟨by decide, by decide, by decide, by decide⟩

/-- C2 (code bug): on the spec's PNG test vector the locator does select
the embedded `parameters` text (`foundIn = "Pillow info/text"`, the
source's tag for EmbeddedInfo), and Negative Prompt and Steps parse as
claimed, but — because the always-true guard of line 66 reroutes parsing
through the no-prompt heuristic — the `Prompt` field comes out as
`"Prompt: a cat"`, not `"a cat"`. -/
theorem extract_sd_meta_png_prompt_bug_eval :
    extract_sd_meta (.ok c2img) [] =
      [("format".data, "PNG".data), ("foundIn".data, "Pillow info/text".data),
       ("Prompt".data, "Prompt: a cat".data), ("Negative Prompt".data, "blurry".data),
       ("Steps".data, "20".data), ("RawSnippet".data, C2S)] ∧
    alookup "Prompt".data (extract_sd_meta (.ok c2img) []) ≠ some "a cat".data := by
  refine ⟨by decide, by decide⟩

/-- C3: for every input string the parser's result maps `RawSnippet` to
exactly the input (the final `data["RawSnippet"] = raw_text` assignment,
whose lookup always wins regardless of which strategy produced the other
fields). -/
theorem parse_sd_text_rawsnippet_verbatim (t : Str) :
    alookup "RawSnippet".data (py_parse_sd_text t) = some t := by
  unfold py_parse_sd_text
  exact alookup_insertOrUpdate_self _ _ _

/-- Witness for C3 at a concrete input with leading/trailing whitespace
(no trimming happens). -/
theorem parse_sd_text_rawsnippet_verbatim_witness :
    alookup "RawSnippet".data (py_parse_sd_text "  a cat  ".data) = some "  a cat  ".data :=
  parse_sd_text_rawsnippet_verbatim "  a cat  ".data

/-- C6 counterexample: on the empty string the result is *not* only the
`RawSnippet` entry — `parse_no_prompt_label` unconditionally returns
`{"Prompt": raw_text.strip()}` when no other label occurs, so the result
also contains `Prompt` mapped to the empty string. -/
theorem parse_sd_text_empty_not_only_rawsnippet :
    ("Prompt".data, ([] : Str)) ∈ py_parse_sd_text [] ∧
    "Prompt".data ≠ "RawSnippet".data := by
  refine ⟨by decide, by decide⟩

/-- C6 as amended: the parser is total (it is a Lean function), its result
always contains the entry `RawSnippet ↦ input`, and for the empty-string
input it contains exactly the entries `Prompt ↦ ""` and
`RawSnippet ↦ ""`. -/
theorem parse_sd_text_total_with_empty_prompt :
    (∀ t : Str, ("RawSnippet".data, t) ∈ py_parse_sd_text t) ∧
    py_parse_sd_text [] = [("Prompt".data, []), ("RawSnippet".data, [])] := by
  constructor
  · intro t
    unfold py_parse_sd_text
    exact mem_insertOrUpdate_self _ _ _
  · decide

/-- C10: when a recognized label matches several times, the final dict
maps its canonical key once (value of the *last* match — lookup in the
reversed match list — at the insertion position of the *first* match —
keys are the first-occurrence dedup of the match keys). -/
theorem parse_labeled_last_value_first_position (t k : Str)
    (h : 2 ≤ countKey k ((canonPairs t).map Prod.fst)) :
    countKey k ((py_parse_labeled t).map Prod.fst) = 1 ∧
    alookup k (py_parse_labeled t) = alookup k ((canonPairs t).reverse) ∧
    (py_parse_labeled t).map Prod.fst = dedupFirst ((canonPairs t).map Prod.fst) := by
  have hfold : py_parse_labeled t = dictUpdate [] (canonPairs t) := rfl
  have hkeys : (py_parse_labeled t).map Prod.fst = dedupFirst ((canonPairs t).map Prod.fst) := by
    rw [hfold, map_fst_dictUpdate]
    simp [dedupFirst]
  have hmem : k ∈ (canonPairs t).map Prod.fst :=
    mem_of_countKey_pos (le_trans (by norm_num) h)
  refine ⟨?_, ?_, hkeys⟩
  · rw [hkeys]
    exact countKey_eq_one_of_nodup (dedupFirstAux_nodup _ _)
      ((mem_dedupFirstAux _ _ _).mpr ⟨hmem, by simp⟩)
  · rw [hfold, alookup_dictUpdate]
    cases h2 : alookup k (canonPairs t).reverse <;> simp [alookup]

/-- Witness for C10: `"Steps: 1 Steps: 2"` matches `Steps` twice; the
result holds `Steps ↦ "2"` once, at the first match's position. -/
theorem parse_labeled_last_value_first_position_witness :
    2 ≤ countKey "Steps".data ((canonPairs "Steps: 1 Steps: 2".data).map Prod.fst) ∧
    countKey "Steps".data ((py_parse_labeled "Steps: 1 Steps: 2".data).map Prod.fst) = 1 ∧
    alookup "Steps".data (py_parse_labeled "Steps: 1 Steps: 2".data) =
      alookup "Steps".data ((canonPairs "Steps: 1 Steps: 2".data).reverse) ∧
    (py_parse_labeled "Steps: 1 Steps: 2".data).map Prod.fst =
      dedupFirst ((canonPairs "Steps: 1 Steps: 2".data).map Prod.fst) :=
  ⟨by decide, parse_labeled_last_value_first_position _ _ (by decide)⟩

/-- C4: when the container text properties include a non-empty
`parameters` property, the locator selects EmbeddedInfo (the source's
`"Pillow info/text"` tag) with that text, and the result is independent of
the EXIF outcome and of the raw bytes: the EXIF UserComment and the
fallback scan are never consulted. -/
theorem extract_sd_meta_parameters_precedence (img : PyImage) (e : ExifOutcome)
    (bdata bdata2 : List Nat) (h : pillowStrOf img ≠ []) :
    extract_sd_meta (.ok img) bdata =
      dictUpdate (insertOrUpdate (insertOrUpdate [] "format".data img.format)
        "foundIn".data "Pillow info/text".data) (py_parse_sd_text (pillowStrOf img)) ∧
    extract_sd_meta (.ok { img with exif := e }) bdata2 = extract_sd_meta (.ok img) bdata := by
  have h2 : pillowStrOf { img with exif := e } ≠ [] := h
  constructor
  · simp only [extract_sd_meta]
    rw [if_pos h]
  · simp only [extract_sd_meta]
    rw [if_pos h, if_pos h2]
    rfl

/-- Witness for C4: a WEBP image with both a non-empty `parameters`
property and a non-empty EXIF UserComment. -/
theorem extract_sd_meta_parameters_precedence_witness :
    pillowStrOf c4img ≠ [] ∧
    (extract_sd_meta (.ok c4img) [255] =
      dictUpdate (insertOrUpdate (insertOrUpdate [] "format".data c4img.format)
        "foundIn".data "Pillow info/text".data) (py_parse_sd_text (pillowStrOf c4img)) ∧
     extract_sd_meta (.ok { c4img with exif := .noExifKey }) [] =
       extract_sd_meta (.ok c4img) [255]) :=
  ⟨by decide, extract_sd_meta_parameters_precedence c4img .noExifKey [255] [] (by decide)⟩

/-- C7 counterexample: the fallback decode uses `errors="ignore"`, which
*drops* undecodable byte sequences instead of replacing them with a
placeholder as the claim states: on the bytes `[0xFF, 0x61]` the source
yields `"a"` while a placeholder-replacing decode yields `"�a"`. -/
theorem fallback_search_no_placeholder :
    py_fallback_search [255, 97] = "a".data ∧
    py_fallback_search_spec [255, 97] = '�' :: "a".data ∧
    py_fallback_search [255, 97] ≠ py_fallback_search_spec [255, 97] := by
  refine ⟨by decide, by decide, by decide⟩

/-- C7 as amended: when neither structured source yields text, the locator
decodes the entire raw byte content with the lossy `errors="ignore"`
UTF-8 decode (total, never fails, but *dropping* — not replacing —
undecodable sequences) and selects Fallback with the resulting text, even
when that text is empty. -/
theorem extract_sd_meta_fallback_selected (img : PyImage) (bdata : List Nat)
    (hp : pillowStrOf img = []) (he : exifStrOf img = []) :
    extract_sd_meta (.ok img) bdata =
      dictUpdate (insertOrUpdate (insertOrUpdate [] "format".data img.format)
        "foundIn".data "Fallback".data) (py_parse_sd_text (py_fallback_search bdata)) := by
  simp only [extract_sd_meta, hp, he]
  simp

/-- Witness for C7: a bare PNG with no metadata and raw bytes `[0xFF]`,
whose lossy decode is the *empty* string — Fallback is still selected. -/
theorem extract_sd_meta_fallback_selected_witness :
    pillowStrOf c7img = [] ∧ exifStrOf c7img = [] ∧ py_fallback_search [255] = [] ∧
    extract_sd_meta (.ok c7img) [255] =
      dictUpdate (insertOrUpdate (insertOrUpdate [] "format".data c7img.format)
        "foundIn".data "Fallback".data) (py_parse_sd_text (py_fallback_search [255])) :=
  ⟨by decide, by decide, by decide,
    extract_sd_meta_fallback_selected c7img [255] (by decide) (by decide)⟩

/-- C8 counterexample: a malformed UserComment (the `piexif.helper`
decode raises) is *not* treated as an absent source: the source recovers
by lossily decoding the raw UserComment bytes (`b"XYZ"` → `"XYZ"`), which
is non-empty, so ExifUserComment — not FallbackBytes — is selected. -/
theorem exif_malformed_usercomment_selects_exif :
    pillowStrOf c8badUC = [] ∧
    alookup "foundIn".data (extract_sd_meta (.ok c8badUC) []) =
      some "Exif UserComment".data ∧
    alookup "foundIn".data (extract_sd_meta (.ok c8badUC) []) ≠
      some "Fallback".data := by
  refine ⟨by decide, by decide, by decide⟩

/-- C8 as amended: on a WEBP image with no non-empty `parameters`
property, every EXIF failure is recovered locally without raising (the
embedding of `extract_exif_usercomment` is total); a missing EXIF block, a
failing EXIF load, a missing UserComment, or a malformed UserComment whose
lossy byte decode is empty all fall through to Fallback — but a malformed
UserComment whose lossy byte decode is non-empty instead selects
ExifUserComment with that text (see the counterexample). -/
theorem exif_failures_fall_through (img : PyImage) (bdata : List Nat)
    (hw : img.format = "WEBP".data) (hp : pillowStrOf img = [])
    (hf : img.exif = .noExifKey ∨ img.exif = .loadFails ∨ img.exif = .noUserComment ∨
          (∃ raw, img.exif = .ucLoadFails raw ∧ utf8Ignore raw = [])) :
    extract_sd_meta (.ok img) bdata =
      dictUpdate (insertOrUpdate (insertOrUpdate [] "format".data img.format)
        "foundIn".data "Fallback".data) (py_parse_sd_text (py_fallback_search bdata)) := by
  have he : exifStrOf img = [] := by
    unfold exifStrOf
    rw [if_pos hw]
    rcases hf with h | h | h | ⟨raw, h, hdec⟩ <;> rw [h] <;>
      simp [extract_exif_usercomment, *]
  simp only [extract_sd_meta, hp, he]
  simp

/-- Witness for C8: a WEBP image whose EXIF block fails to load falls
through to Fallback. -/
theorem exif_failures_fall_through_witness :
    c8img.format = "WEBP".data ∧ pillowStrOf c8img = [] ∧ c8img.exif = .loadFails ∧
    extract_sd_meta (.ok c8img) [72] =
      dictUpdate (insertOrUpdate (insertOrUpdate [] "format".data c8img.format)
        "foundIn".data "Fallback".data) (py_parse_sd_text (py_fallback_search [72])) :=
  ⟨by decide, by decide, by decide,
    exif_failures_fall_through c8img [72] (by decide) (by decide) (Or.inr (Or.inl (by decide)))⟩


/-! ### Presenter lemmas (claim C9) -/

theorem find?_cons_eq {α : Type} (pr : α → Bool) (a : α) (l : List α) :
    (a :: l).find? pr = if pr a then some a else l.find? pr := by
  cases hpa : pr a <;> simp [List.find?, hpa]

theorem filter_cons_true {α : Type} (pr : α → Bool) (a : α) (l : List α) (h : pr a = true) :
    (a :: l).filter pr = a :: l.filter pr := by
  simp [List.filter_cons, h]

theorem filter_cons_false {α : Type} (pr : α → Bool) (a : α) (l : List α) (h : pr a = false) :
    (a :: l).filter pr = l.filter pr := by
  simp [List.filter_cons, h]

theorem eraseP_cons_true {α : Type} (pr : α → Bool) (a : α) (l : List α) (h : pr a = true) :
    (a :: l).eraseP pr = l := by
  simp [List.eraseP_cons, h]

theorem eraseP_cons_false {α : Type} (pr : α → Bool) (a : α) (l : List α) (h : pr a = false) :
    (a :: l).eraseP pr = a :: l.eraseP pr := by
  simp [List.eraseP_cons, h]

theorem alookup_eq_none_iff (m : PyDict) (k : Str) :
    alookup k m = none ↔ k ∉ m.map Prod.fst := by
  induction m with
  | nil => simp [alookup]
  | cons p rest ih =>
    by_cases h : p.1 = k
    · simp [alookup, h]
    · have hne : ¬ k = p.1 := fun hh => h hh.symm
      simp [alookup, h, ih, hne]

theorem find?_ci (m : PyDict) (k : Str)
    (hexact : ∀ p ∈ m, pyLower p.1 = pyLower k → p.1 = k) :
    m.find? (fun p => pyLower p.1 == pyLower k) =
      (alookup k m).map (fun v => (k, v)) := by
  induction m with
  | nil => rfl
  | cons p rest ih =>
    by_cases h : p.1 = k
    · have hbeq : (pyLower p.1 == pyLower k) = true := by rw [h]; simp
      rw [find?_cons_eq, if_pos hbeq]
      simp only [alookup]
      rw [if_pos h, Option.map_some']
      exact congrArg some (by rw [← h])
    · have hne : ¬ pyLower p.1 = pyLower k :=
        fun hh => h (hexact p (List.mem_cons_self _ _) hh)
      have hbeq : (pyLower p.1 == pyLower k) = false := by
        simpa using hne
      rw [find?_cons_eq, if_neg (by simp [hbeq])]
      simp only [alookup]
      rw [if_neg h]
      exact ih (fun q hq => hexact q (List.mem_cons_of_mem _ hq))

theorem insertOrUpdate_append (disp : PyDict) (k v : Str)
    (h : k ∉ disp.map Prod.fst) : insertOrUpdate disp k v = disp ++ [(k, v)] := by
  induction disp with
  | nil => rfl
  | cons p rest ih =>
    have hpk : ¬ p.1 = k := by
      intro hh; exact h (by simp [hh.symm])
    have hrest : k ∉ rest.map Prod.fst := fun hh => h (by simp [hh])
    simp [insertOrUpdate, hpk, ih hrest]

theorem eraseP_key_of_nodup (m : PyDict) (k : Str) (hnd : (m.map Prod.fst).Nodup) :
    m.eraseP (fun q => q.1 == k) = m.filter (keyNe k) := by
  induction m with
  | nil => rfl
  | cons p rest ih =>
    rw [List.map_cons] at hnd
    rcases List.nodup_cons.mp hnd with ⟨hp, hrest⟩
    by_cases h : p.1 = k
    · have hbeq : (p.1 == k) = true := by rw [h]; simp
      have hkn : keyNe k p = false := by simp [keyNe, h]
      rw [eraseP_cons_true (fun q => q.1 == k) p rest hbeq, filter_cons_false _ _ _ hkn]
      symm
      apply List.filter_eq_self.mpr
      intro q hq
      have hqk : ¬ q.1 = k := by
        intro hh
        have hqm : q.1 ∈ rest.map Prod.fst := List.mem_map_of_mem Prod.fst hq
        rw [hh, ← h] at hqm
        exact hp hqm
      simp [keyNe, hqk]
    · have hbeq : (p.1 == k) = false := by simp [h]
      have hkn : keyNe k p = true := by simp [keyNe, h]
      rw [eraseP_cons_false (fun q => q.1 == k) p rest hbeq, filter_cons_true _ _ _ hkn, ih hrest]

theorem alookup_filter_ne (m : PyDict) (k k' : Str) (h : ¬ k' = k) :
    alookup k' (m.filter (keyNe k)) = alookup k' m := by
  induction m with
  | nil => rfl
  | cons p rest ih =>
    by_cases hp : p.1 = k
    · have hf : keyNe k p = false := by simp [keyNe, hp]
      have hpk : ¬ p.1 = k' := by rw [hp]; exact fun hh => h hh.symm
      rw [filter_cons_false _ _ _ hf]
      simp only [alookup]
      rw [if_neg hpk]
      exact ih
    · have hf : keyNe k p = true := by simp [keyNe, hp]
      rw [filter_cons_true _ _ _ hf]
      simp only [alookup]
      by_cases hp2 : p.1 = k'
      · rw [if_pos hp2, if_pos hp2]
      · rw [if_neg hp2, if_neg hp2]
        exact ih

theorem map_fst_filter_nodup (m : PyDict) (f : Str × Str → Bool)
    (hnd : (m.map Prod.fst).Nodup) : ((m.filter f).map Prod.fst).Nodup :=
  List.Nodup.sublist (List.Sublist.map Prod.fst (List.filter_sublist m)) hnd

theorem map_fst_filterMap (os : List Str) (m : PyDict) :
    (os.filterMap (fun k => (alookup k m).map (fun v => (k, v)))).map Prod.fst =
      os.filter (fun k => (alookup k m).isSome) := by
  induction os with
  | nil => rfl
  | cons k os' ih =>
    cases h : alookup k m <;> simp [List.filterMap_cons, h, ih]

theorem filterMap_alookup_congr (os : List Str) (m m' : PyDict)
    (h : ∀ k ∈ os, alookup k m = alookup k m') :
    os.filterMap (fun k => (alookup k m).map (fun v => (k, v))) =
      os.filterMap (fun k => (alookup k m').map (fun v => (k, v))) := by
  induction os with
  | nil => rfl
  | cons k os' ih =>
    rw [List.filterMap_cons, List.filterMap_cons, h k (List.mem_cons_self _ _),
      ih (fun q hq => h q (List.mem_cons_of_mem _ hq))]

theorem filterMap_alookup_cons_none (os' : List Str) (m : PyDict) (k : Str)
    (h : alookup k m = none) :
    (k :: os').filterMap (fun q => (alookup q m).map (fun v => (q, v))) =
      os'.filterMap (fun q => (alookup q m).map (fun v => (q, v))) := by
  simp [List.filterMap_cons, h]

theorem filterMap_alookup_cons_some (os' : List Str) (m : PyDict) (k v : Str)
    (h : alookup k m = some v) :
    (k :: os').filterMap (fun q => (alookup q m).map (fun v => (q, v))) =
      (k, v) :: os'.filterMap (fun q => (alookup q m).map (fun v => (q, v))) := by
  simp [List.filterMap_cons, h]

theorem filter_filter_notmem (m : PyDict) (k : Str) (os' : List Str) :
    (m.filter (keyNe k)).filter (keyNotIn os') = m.filter (keyNotIn (k :: os')) := by
  induction m with
  | nil => rfl
  | cons p rest ih =>
    by_cases h1 : p.1 = k
    · have ha : keyNe k p = false := by simp [keyNe, h1]
      have hb : keyNotIn (k :: os') p = false := by simp [keyNotIn, h1]
      rw [filter_cons_false _ _ _ ha, filter_cons_false _ _ _ hb, ih]
    · have ha : keyNe k p = true := by simp [keyNe, h1]
      by_cases h2 : p.1 ∈ os'
      · have hb : keyNotIn os' p = false := by simp [keyNotIn, h2]
        have hc : keyNotIn (k :: os') p = false := by simp [keyNotIn, h2]
        rw [filter_cons_true _ _ _ ha, filter_cons_false _ _ _ hb,
          filter_cons_false _ _ _ hc, ih]
      · have hb : keyNotIn os' p = true := by simp [keyNotIn, h2]
        have hc : keyNotIn (k :: os') p = true := by simp [keyNotIn, h1, h2]
        rw [filter_cons_true _ _ _ ha, filter_cons_true _ _ _ hb,
          filter_cons_true _ _ _ hc, ih]

theorem filter_notmem_cons_of_not_key (m : PyDict) (k : Str) (os' : List Str)
    (h : k ∉ m.map Prod.fst) :
    m.filter (keyNotIn (k :: os')) = m.filter (keyNotIn os') := by
  induction m with
  | nil => rfl
  | cons p rest ih =>
    have hpk : ¬ p.1 = k := fun hh => h (by simp [hh.symm])
    have hrest : k ∉ rest.map Prod.fst := fun hh => h (by simp [hh])
    by_cases h2 : p.1 ∈ os'
    · have hb : keyNotIn (k :: os') p = false := by simp [keyNotIn, h2]
      have hc : keyNotIn os' p = false := by simp [keyNotIn, h2]
      rw [filter_cons_false _ _ _ hb, filter_cons_false _ _ _ hc, ih hrest]
    · have hb : keyNotIn (k :: os') p = true := by simp [keyNotIn, hpk, h2]
      have hc : keyNotIn os' p = true := by simp [keyNotIn, h2]
      rw [filter_cons_true _ _ _ hb, filter_cons_true _ _ _ hc, ih hrest]

theorem filter_eq_key_nil (m : PyDict) (u : Str) (h : u ∉ m.map Prod.fst) :
    m.filter (keyEq u) = [] := by
  induction m with
  | nil => rfl
  | cons p rest ih =>
    have hpu : ¬ p.1 = u := fun hh => h (by simp [hh.symm])
    have hrest : u ∉ rest.map Prod.fst := fun hh => h (by simp [hh])
    rw [filter_cons_false _ _ _ (by simp [keyEq, hpu]), ih hrest]

theorem filter_eq_key_of_nodup (m : PyDict) (u vu : Str)
    (hnd : (m.map Prod.fst).Nodup) (hm : (u, vu) ∈ m) :
    m.filter (keyEq u) = [(u, vu)] := by
  induction m with
  | nil => cases hm
  | cons p rest ih =>
    rw [List.map_cons] at hnd
    rcases List.nodup_cons.mp hnd with ⟨hp, hrest⟩
    rcases List.mem_cons.mp hm with rfl | hm'
    · have hnil : rest.filter (keyEq u) = [] :=
        filter_eq_key_nil rest u (by simpa using hp)
      rw [filter_cons_true _ _ _ (by simp [keyEq]), hnil]
    · have hpu : ¬ p.1 = u := by
        intro hh
        apply hp
        rw [hh]
        exact List.mem_map_of_mem Prod.fst hm'
      rw [filter_cons_false _ _ _ (by simp [keyEq, hpu]), ih hrest hm']

theorem present_foldl (os : List Str) : ∀ (disp m : PyDict),
    (m.map Prod.fst).Nodup →
    (∀ p ∈ m, ∀ k ∈ os, pyLower p.1 = pyLower k → p.1 = k) →
    os.Nodup →
    (∀ k ∈ os, k ∉ disp.map Prod.fst) →
    os.foldl presentStep (disp, m) =
      (disp ++ os.filterMap (fun k => (alookup k m).map (fun v => (k, v))),
       m.filter (keyNotIn os)) := by
  induction os with
  | nil =>
    intro disp m _ _ _ _
    have : m.filter (keyNotIn []) = m := by
      apply List.filter_eq_self.mpr
      intro q _
      simp [keyNotIn]
    simp [List.filterMap_nil, this]
  | cons k os' ih =>
    intro disp m hnd hexact hos hdisj
    rcases List.nodup_cons.mp hos with ⟨hkos, hos'⟩
    have hstep : presentStep (disp, m) k =
        match (alookup k m).map (fun v => (k, v)) with
        | some pr => (insertOrUpdate disp k pr.2, m.eraseP (fun q => q.1 == pr.1))
        | none => (disp, m) := by
      rw [presentStep, find?_ci m k
        (fun p hp => hexact p hp k (List.mem_cons_self _ _))]
    rw [List.foldl_cons]
    cases halk : alookup k m with
    | none =>
      have hknm : k ∉ m.map Prod.fst := (alookup_eq_none_iff m k).mp halk
      have hstep2 : presentStep (disp, m) k = (disp, m) := by
        rw [hstep, halk]
        rfl
      rw [hstep2, ih disp m hnd
        (fun p hp k' hk' => hexact p hp k' (List.mem_cons_of_mem _ hk'))
        hos' (fun k' hk' => hdisj k' (List.mem_cons_of_mem _ hk')),
        filterMap_alookup_cons_none os' m k halk,
        filter_notmem_cons_of_not_key m k os' hknm]
    | some v =>
      have hstep2 : presentStep (disp, m) k =
          (insertOrUpdate disp k v, m.eraseP (fun q => q.1 == k)) := by
        rw [hstep, halk]
        rfl
      have hnd2 : ((m.filter (keyNe k)).map Prod.fst).Nodup :=
        map_fst_filter_nodup m _ hnd
      have hexact2 : ∀ p ∈ m.filter (keyNe k), ∀ k' ∈ os',
          pyLower p.1 = pyLower k' → p.1 = k' := fun p hp k' hk' =>
        hexact p (List.mem_of_mem_filter hp) k' (List.mem_cons_of_mem _ hk')
      have hdisp2 : ∀ k' ∈ os', k' ∉ (disp ++ [(k, v)]).map Prod.fst := by
        intro k' hk'
        rw [List.map_append]
        intro hmem
        rcases List.mem_append.mp hmem with hmem | hmem
        · exact hdisj k' (List.mem_cons_of_mem _ hk') hmem
        · simp only [List.map_cons, List.map_nil, List.mem_singleton] at hmem
          exact hkos (hmem ▸ hk')
      rw [hstep2, eraseP_key_of_nodup m k hnd,
        insertOrUpdate_append disp k v (hdisj k (List.mem_cons_self _ _)),
        ih (disp ++ [(k, v)]) (m.filter (keyNe k)) hnd2 hexact2 hos' hdisp2,
        filterMap_alookup_congr os' (m.filter (keyNe k)) m
          (fun k' hk' => alookup_filter_ne m k k' (fun hh => hkos (hh ▸ hk'))),
        filterMap_alookup_cons_some os' m k v halk,
        filter_filter_notmem m k os',
        List.append_assoc, List.singleton_append]

/-- C9: for a field map whose keys are a subset of the ten canonical
labels plus one unrecognized key `u` (in any position), the presenter
lists the present canonical labels first, in `CANON_ORDER`, each matched
case-insensitively and removed at most once, followed by the unrecognized
entry, with no duplicate keys. -/
theorem presentOrder_canonical_then_unrecognized (meta : PyDict) (u vu : Str)
    (hnd : (meta.map Prod.fst).Nodup)
    (hkeys : ∀ p ∈ meta, p.1 = u ∨ p.1 ∈ CANON_ORDER)
    (hu : (u, vu) ∈ meta)
    (hu2 : ∀ k ∈ CANON_ORDER, ¬ pyLower u = pyLower k) :
    presentOrder meta =
      CANON_ORDER.filterMap (fun k => (alookup k meta).map (fun v => (k, v))) ++ [(u, vu)] ∧
    ((presentOrder meta).map Prod.fst).Nodup := by
  have hexact : ∀ p ∈ meta, ∀ k ∈ CANON_ORDER, pyLower p.1 = pyLower k → p.1 = k := by
    intro p hp k hk hl
    rcases hkeys p hp with hpu | hpc
    · exfalso
      apply hu2 k hk
      rw [← hpu]
      exact hl
    · have hpair : ∀ a ∈ CANON_ORDER, ∀ b ∈ CANON_ORDER, pyLower a = pyLower b → a = b := by
        decide
      exact hpair p.1 hpc k hk hl
  have hu_not_canon : u ∉ CANON_ORDER := fun hh => hu2 u hh rfl
  have hfold := present_foldl CANON_ORDER [] meta hnd hexact (by decide)
    (by intro k _; simp)
  have hrem : meta.filter (keyNotIn CANON_ORDER) = [(u, vu)] := by
    have hcong : meta.filter (keyNotIn CANON_ORDER) = meta.filter (keyEq u) := by
      apply List.filter_congr
      intro p hp
      rcases hkeys p hp with hpu | hpc
      · simp [keyNotIn, keyEq, hpu, hu_not_canon]
      · have hpne : ¬ p.1 = u := by
          intro hh
          exact hu_not_canon (hh ▸ hpc)
        simp [keyNotIn, keyEq, hpc, hpne]
    rw [hcong]
    exact filter_eq_key_of_nodup meta u vu hnd hu
  have hkd : u ∉ (([] : PyDict) ++
      CANON_ORDER.filterMap (fun k => (alookup k meta).map (fun v => (k, v)))).map Prod.fst := by
    rw [List.nil_append, map_fst_filterMap]
    intro hmem
    exact hu_not_canon (List.mem_of_mem_filter hmem)
  have hmain : presentOrder meta =
      CANON_ORDER.filterMap (fun k => (alookup k meta).map (fun v => (k, v))) ++ [(u, vu)] := by
    rw [presentOrder, hfold]
    show dictUpdate _ _ = _
    rw [hrem]
    have : dictUpdate (([] : PyDict) ++
        CANON_ORDER.filterMap (fun k => (alookup k meta).map (fun v => (k, v)))) [(u, vu)] =
        insertOrUpdate (([] : PyDict) ++
          CANON_ORDER.filterMap (fun k => (alookup k meta).map (fun v => (k, v)))) u vu := rfl
    rw [this, insertOrUpdate_append _ _ _ hkd, List.nil_append]
  refine ⟨hmain, ?_⟩
  rw [hmain, List.map_append, map_fst_filterMap]
  apply List.Nodup.append
  · exact List.Nodup.filter _ (by decide)
  · simp
  · intro x hx1 hx2
    simp only [List.map_cons, List.map_nil, List.mem_singleton] at hx2
    exact hu_not_canon (hx2 ▸ List.mem_of_mem_filter hx1)

/-- Witness for C9 on a concrete three-entry map with the unrecognized
key `Foo` in the middle. -/
theorem presentOrder_canonical_then_unrecognized_witness :
    (c9meta.map Prod.fst).Nodup ∧
    presentOrder c9meta = [("Prompt".data, "hi".data), ("Steps".data, "20".data),
      ("Foo".data, "bar".data)] ∧
    (presentOrder c9meta =
      CANON_ORDER.filterMap (fun k => (alookup k c9meta).map (fun v => (k, v))) ++
        [("Foo".data, "bar".data)] ∧
    ((presentOrder c9meta).map Prod.fst).Nodup) :=
  ⟨by decide, by decide,
    presentOrder_canonical_then_unrecognized c9meta "Foo".data "bar".data
      (by decide) (by decide) (by decide) (by decide)⟩

/-! ### Scan and slice lemmas (claim C5) -/

theorem scanMin_ge (f : Nat → Bool) : ∀ (n a : Nat), a ≤ scanMin f a n := by
  intro n
  induction n with
  | zero => intro a; exact Nat.le_refl a
  | succ n ih =>
    intro a
    rw [scanMin]
    by_cases h : f a = true
    · rw [if_pos h]
    · rw [if_neg h]
      exact Nat.le_trans (Nat.le_succ a) (ih (a + 1))

theorem scanMin_le_of_sat (f : Nat → Bool) : ∀ (n a b : Nat),
    f b = true → a ≤ b → b ≤ a + n → scanMin f a n ≤ b := by
  intro n
  induction n with
  | zero => intro a b _ hab _; exact hab
  | succ n ih =>
    intro a b hb hab hbn
    rw [scanMin]
    by_cases h : f a = true
    · rw [if_pos h]; exact hab
    · rw [if_neg h]
      have hne : a ≠ b := fun hh => h (hh ▸ hb)
      exact ih (a + 1) b hb (Nat.lt_of_le_of_ne hab hne) (by omega)

theorem scanMin_sat (f : Nat → Bool) : ∀ (n a : Nat),
    (∃ b, a ≤ b ∧ b ≤ a + n ∧ f b = true) → f (scanMin f a n) = true := by
  intro n
  induction n with
  | zero =>
    rintro a ⟨b, hab, hba, hb⟩
    have : b = a := Nat.le_antisymm (by omega) hab
    rw [scanMin]
    exact this ▸ hb
  | succ n ih =>
    rintro a ⟨b, hab, hba, hb⟩
    rw [scanMin]
    by_cases h : f a = true
    · rw [if_pos h]; exact h
    · rw [if_neg h]
      have hne : a ≠ b := fun hh => h (hh ▸ hb)
      exact ih (a + 1) ⟨b, Nat.lt_of_le_of_ne hab hne, by omega, hb⟩

theorem scanMin_min (f : Nat → Bool) : ∀ (n a r : Nat),
    a ≤ r → r < scanMin f a n → f r = false := by
  intro n
  induction n with
  | zero =>
    intro a r har hlt
    rw [scanMin] at hlt
    omega
  | succ n ih =>
    intro a r har hlt
    rw [scanMin] at hlt
    by_cases h : f a = true
    · rw [if_pos h] at hlt; omega
    · rw [if_neg h] at hlt
      rcases Nat.eq_or_lt_of_le har with rfl | har2
      · exact Bool.eq_false_iff.mpr h
      · exact ih (a + 1) r har2 hlt

theorem wsCount_le_length : ∀ (l : Str), wsCount l ≤ l.length := by
  intro l
  induction l with
  | nil => exact Nat.le_refl 0
  | cons c t ih =>
    rw [wsCount]
    by_cases h : pyIsSpace c = true
    · rw [if_pos h, List.length_cons]; omega
    · rw [if_neg h]; exact Nat.zero_le _

theorem wsCount_get?_space : ∀ (l : Str) (j : Nat), j < wsCount l →
    ∃ c, l.get? j = some c ∧ pyIsSpace c = true := by
  intro l
  induction l with
  | nil => intro j h; rw [wsCount] at h; omega
  | cons c t ih =>
    intro j h
    rw [wsCount] at h
    by_cases hc : pyIsSpace c = true
    · rw [if_pos hc] at h
      cases j with
      | zero => exact ⟨c, rfl, hc⟩
      | succ j' => exact ih j' (by omega)
    · rw [if_neg hc] at h; omega

theorem get?_dropA {α : Type} : ∀ (a : Nat) (l : List α) (k : Nat),
    (l.drop a).get? k = l.get? (a + k) := by
  intro a
  induction a with
  | zero => intro l k; rw [List.drop_zero, Nat.zero_add]
  | succ a ih =>
    intro l k
    cases l with
    | nil => simp
    | cons x t =>
      rw [List.drop_succ_cons, ih t k]
      have : a + 1 + k = (a + k) + 1 := by omega
      rw [this]
      rfl

theorem get?_takeA {α : Type} : ∀ (n : Nat) (l : List α) (k : Nat), k < n →
    (l.take n).get? k = l.get? k := by
  intro n
  induction n with
  | zero => intro l k h; omega
  | succ n ih =>
    intro l k h
    cases l with
    | nil => simp
    | cons x t =>
      cases k with
      | zero => rfl
      | succ k' => exact ih t k' (by omega)

theorem sliceL_get? (s : Str) (a b k : Nat) (h : k < b - a) :
    (sliceL s a b).get? k = s.get? (a + k) := by
  rw [sliceL, get?_takeA (b - a) _ k h, get?_dropA]

theorem sliceL_append (s : Str) (a b c : Nat) (hab : a ≤ b) (hbc : b ≤ c) :
    sliceL s a c = sliceL s a b ++ sliceL s b c := by
  rw [sliceL, sliceL, sliceL]
  have h1 : c - a = (b - a) + (c - b) := by omega
  rw [h1, List.take_add]
  congr 1
  rw [List.drop_drop]
  have h2 : a + (b - a) = b := by omega
  rw [h2]

theorem all_eq_true_get? {α : Type} (p : α → Bool) : ∀ (l : List α),
    l.all p = true ↔ ∀ k c, l.get? k = some c → p c = true := by
  intro l
  induction l with
  | nil =>
    constructor
    · intro _ k c h; cases h
    · intro _; rfl
  | cons x t ih =>
    rw [List.all_cons, Bool.and_eq_true, ih]
    constructor
    · rintro ⟨hx, ht⟩ k c h
      cases k with
      | zero => injection h with h; exact h ▸ hx
      | succ k' => exact ht k' c h
    · intro h
      exact ⟨h 0 x rfl, fun k c hk => h (k + 1) c hk⟩

theorem sliceL_all_space (s : Str) (a b : Nat)
    (h : ∀ r, a ≤ r → r < b → ∃ c, s.get? r = some c ∧ pyIsSpace c = true) :
    (sliceL s a b).all pyIsSpace = true := by
  rw [all_eq_true_get?]
  intro k c hk
  have hkb : k < b - a := by
    by_contra hkb
    have hlen : (sliceL s a b).length ≤ k := by
      rw [sliceL]
      exact Nat.le_trans (List.length_take_le _ _) (Nat.le_of_not_lt hkb)
    rw [List.get?_eq_none.mpr hlen] at hk
    cases hk
  rw [sliceL_get? s a b k hkb] at hk
  rcases h (a + k) (by omega) (by omega) with ⟨c', hc', hsp⟩
  rw [hc'] at hk
  injection hk with hk
  exact hk ▸ hsp

theorem dropWhile_append_all {α : Type} (p : α → Bool) :
    ∀ (l1 l2 : List α), l1.all p = true →
    (l1 ++ l2).dropWhile p = l2.dropWhile p := by
  intro l1
  induction l1 with
  | nil => intro l2 _; rfl
  | cons x t ih =>
    intro l2 h
    have h' : p x = true ∧ t.all p = true := by simpa [List.all_cons] using h
    rcases h' with ⟨hx, ht⟩
    rw [List.cons_append, List.dropWhile_cons, if_pos hx, ih l2 ht]

theorem all_dropWhile_nil {α : Type} (p : α → Bool) :
    ∀ (l : List α), l.all p = true → l.dropWhile p = [] := by
  intro l
  induction l with
  | nil => intro _; rfl
  | cons x t ih =>
    intro h
    have h' : p x = true ∧ t.all p = true := by simpa [List.all_cons] using h
    rcases h' with ⟨hx, ht⟩
    rw [List.dropWhile_cons, if_pos hx, ih ht]

theorem dropWhile_nil_all {α : Type} (p : α → Bool) :
    ∀ (l : List α), l.dropWhile p = [] → l.all p = true := by
  intro l
  induction l with
  | nil => intro _; rfl
  | cons x t ih =>
    intro h
    rw [List.dropWhile_cons] at h
    by_cases hx : p x = true
    · rw [if_pos hx] at h
      rw [List.all_cons, hx, ih h]
      rfl
    · rw [if_neg hx] at h
      cases h

theorem dropWhile_append_keep {α : Type} (p : α → Bool) :
    ∀ (l1 l2 : List α), l1.dropWhile p ≠ [] →
    (l1 ++ l2).dropWhile p = l1.dropWhile p ++ l2 := by
  intro l1
  induction l1 with
  | nil => intro l2 h; exact absurd rfl h
  | cons x t ih =>
    intro l2 h
    rw [List.dropWhile_cons] at h
    by_cases hx : p x = true
    · rw [if_pos hx] at h
      rw [List.cons_append, List.dropWhile_cons, if_pos hx, List.dropWhile_cons, if_pos hx,
        ih l2 h]
    · rw [if_neg hx] at h
      rw [List.cons_append, List.dropWhile_cons, if_neg hx, List.dropWhile_cons, if_neg hx,
        List.cons_append]

theorem pyStrip_ws_append (ws u : Str) (h : ws.all pyIsSpace = true) :
    pyStrip (ws ++ u) = pyStrip u := by
  rw [pyStrip, pyStrip, dropWhile_append_all _ ws u h]

theorem pyStrip_append_ws (u ws : Str) (h : ws.all pyIsSpace = true) :
    pyStrip (u ++ ws) = pyStrip u := by
  by_cases hu : u.dropWhile pyIsSpace = []
  · have hall : (u ++ ws).all pyIsSpace = true := by
      rw [List.all_append, dropWhile_nil_all _ u hu, h]
      rfl
    rw [pyStrip, pyStrip, all_dropWhile_nil _ _ hall, hu]
  · have hrev : ws.reverse.all pyIsSpace = true := by
      rw [List.all_reverse]
      exact h
    rw [pyStrip, pyStrip, dropWhile_append_keep _ u ws hu, List.reverse_append,
      dropWhile_append_all _ ws.reverse _ hrev]

theorem ciStartsWith_append (a b l : List Char) :
    ciStartsWith (a ++ b) l = (ciStartsWith a l && ciStartsWith b (l.drop a.length)) := by
  induction a generalizing l with
  | nil => simp [ciStartsWith]
  | cons c cs ih =>
    cases l with
    | nil => simp [ciStartsWith]
    | cons d ds =>
      rw [List.cons_append]
      show ((Char.toLower c == Char.toLower d) && ciStartsWith (cs ++ b) ds) = _
      rw [ih ds]
      show _ = (((Char.toLower c == Char.toLower d) && ciStartsWith cs ds) &&
        ciStartsWith b (ds.drop cs.length))
      rw [Bool.and_assoc]

theorem matchesCI_append (a b : List Char) (s : Str) (q : Nat) :
    matchesCI (a ++ b) s q = (matchesCI a s q && ciStartsWith b ((s.drop q).drop a.length)) :=
  ciStartsWith_append a b (s.drop q)

theorem ciStartsWith_cons_inv (c : Char) (cs l : List Char)
    (h : ciStartsWith (c :: cs) l = true) :
    ∃ d t, l = d :: t ∧ Char.toLower c = Char.toLower d ∧ ciStartsWith cs t = true := by
  cases l with
  | nil => simp [ciStartsWith] at h
  | cons d t =>
    have h' : (Char.toLower c == Char.toLower d) = true ∧ ciStartsWith cs t = true := by
      simpa [ciStartsWith] using h
    exact ⟨d, t, rfl, by simpa using h'.1, h'.2⟩

theorem pyIsSpace_toLower (d : Char) (h : pyIsSpace d = true) : Char.toLower d = d := by
  have h' : d = ' ' ∨ d = '\t' ∨ d = '\n' ∨ d = '\r' ∨ d = '\x0b' ∨ d = '\x0c' := by
    simpa [pyIsSpace, or_assoc] using h
  rcases h' with rfl | rfl | rfl | rfl | rfl | rfl <;> decide

theorem get?_zero_eq_head? {α : Type} (l : List α) : l.get? 0 = l.head? := by
  cases l <;> rfl

theorem head_not_space_of_ci (tok l : List Char) (hok : tokHeadOK tok = true)
    (h : ciStartsWith tok l = true) :
    ∀ d, l.head? = some d → pyIsSpace d = false := by
  cases tok with
  | nil => simp [tokHeadOK] at hok
  | cons c cs =>
    intro d hd
    rcases ciStartsWith_cons_inv c cs l h with ⟨d', t, rfl, hlow, _⟩
    have hdd : d' = d := by simpa using hd
    subst hdd
    cases hsp : pyIsSpace d' with
    | false => rfl
    | true =>
      exfalso
      have hlow2 : Char.toLower d' = d' := pyIsSpace_toLower d' hsp
      have hok2 : pyIsSpace (Char.toLower c) = false := by simpa [tokHeadOK] using hok
      rw [hlow, hlow2, hsp] at hok2
      cases hok2

theorem ci_nonempty_lt_length (tok : List Char) (s : Str) (q : Nat) (hne : tok ≠ [])
    (h : matchesCI tok s q = true) : q < s.length := by
  cases tok with
  | nil => exact absurd rfl hne
  | cons c cs =>
    rcases ciStartsWith_cons_inv c cs (s.drop q) h with ⟨d, t, hdrop, _, _⟩
    by_contra hq
    rw [List.drop_eq_nil_of_le (Nat.le_of_not_lt hq)] at hdrop
    cases hdrop

theorem termAt_lt_length (s : Str) (q : Nat) (h : termAt s q = true) : q < s.length := by
  have h' : ∃ t ∈ TERMS, matchesCI t s q = true := by
    simpa [termAt, List.any_eq_true] using h
  rcases h' with ⟨t, ht, hm⟩
  have hall : ∀ t ∈ TERMS, t ≠ [] := by decide
  exact ci_nonempty_lt_length t s q (hall t ht) hm

theorem claimTermAt_cases (s : Str) (q : Nat) (h : claimTermAt s q = true) :
    (∃ L ∈ LABELS_RE, matchesCI (L ++ [':']) s q = true) ∨
      matchesCI "Model".data s q = true ∨ matchesCI "Version".data s q = true := by
  simpa [claimTermAt, List.any_eq_true, Bool.or_eq_true, or_assoc] using h

theorem claimTermAt_not_space (s : Str) (q : Nat) (h : claimTermAt s q = true) :
    ∀ c, s.get? q = some c → pyIsSpace c = false := by
  intro c hc
  have hhead : (s.drop q).head? = some c := by
    rw [← get?_zero_eq_head?, get?_dropA, Nat.add_zero]
    exact hc
  have hok : ∀ L ∈ LABELS_RE, tokHeadOK (L ++ [':']) = true := by decide
  rcases claimTermAt_cases s q h with ⟨L, hL, hm⟩ | hm | hm
  · exact head_not_space_of_ci (L ++ [':']) (s.drop q) (hok L hL) hm c hhead
  · exact head_not_space_of_ci "Model".data (s.drop q) (by decide) hm c hhead
  · exact head_not_space_of_ci "Version".data (s.drop q) (by decide) hm c hhead

theorem claimTermAt_lt_length (s : Str) (q : Nat) (h : claimTermAt s q = true) :
    q < s.length := by
  rcases claimTermAt_cases s q h with ⟨L, _, hm⟩ | hm | hm
  · exact ci_nonempty_lt_length _ s q (by simp) hm
  · exact ci_nonempty_lt_length _ s q (by simp) hm
  · exact ci_nonempty_lt_length _ s q (by simp) hm

theorem termAt_eq_claimTermAt (s : Str) (q : Nat) : termAt s q = claimTermAt s q := by
  simp only [termAt, claimTermAt, TERMS, LABELS_RE, List.map_cons, List.map_nil,
    List.any_cons, List.any_nil, List.cons_append, List.nil_append]
  have hM : matchesCI ['M', 'o', 'd', 'e', 'l', ':'] s q =
      (matchesCI ['M', 'o', 'd', 'e', 'l'] s q &&
        ciStartsWith [':'] ((s.drop q).drop (['M', 'o', 'd', 'e', 'l'] : List Char).length)) := by
    rw [← matchesCI_append]
    rfl
  have hV : matchesCI ['V', 'e', 'r', 's', 'i', 'o', 'n', ':'] s q =
      (matchesCI ['V', 'e', 'r', 's', 'i', 'o', 'n'] s q &&
        ciStartsWith [':']
          ((s.drop q).drop (['V', 'e', 'r', 's', 'i', 'o', 'n'] : List Char).length)) := by
    rw [← matchesCI_append]
    rfl
  rw [hM, hV]
  cases hMb : matchesCI ['M', 'o', 'd', 'e', 'l'] s q <;>
    cases hVb : matchesCI ['V', 'e', 'r', 's', 'i', 'o', 'n'] s q <;> simp [hMb, hVb]

theorem wsRun_le (s : Str) (i : Nat) : i + wsRun s i ≤ i + (s.length - i) := by
  rw [wsRun]
  have h := wsCount_le_length (s.drop i)
  rw [List.length_drop] at h
  omega

theorem wsRun_space (s : Str) (i r : Nat) (h1 : i ≤ r) (h2 : r < i + wsRun s i) :
    ∃ c, s.get? r = some c ∧ pyIsSpace c = true := by
  have h3 : r - i < wsCount (s.drop i) := by
    rw [wsRun] at h2; omega
  rcases wsCount_get?_space (s.drop i) (r - i) h3 with ⟨c, hc, hsp⟩
  rw [get?_dropA] at hc
  have he : i + (r - i) = r := by omega
  rw [he] at hc
  exact ⟨c, hc, hsp⟩

theorem lookAt_of_term (s : Str) (q : Nat) (h : termAt s q = true) : lookAt s q = true := by
  rw [lookAt, List.any_eq_true]
  exact ⟨0, List.mem_range.mpr (by omega), by simp [h]⟩

theorem lookAt_of_dollar (s : Str) (q : Nat) (h : dollarAt s q = true) : lookAt s q = true := by
  rw [lookAt, List.any_eq_true]
  exact ⟨0, List.mem_range.mpr (by omega), by simp [h]⟩

theorem dollarAt_len (s : Str) : dollarAt s s.length = true := by
  simp [dollarAt]

theorem lookAt_len (s : Str) : lookAt s s.length = true :=
  lookAt_of_dollar s s.length (dollarAt_len s)

theorem lookAt_decomp (s : Str) (p : Nat) (h : lookAt s p = true) :
    ∃ w, w ≤ wsRun s p ∧ (termAt s (p + w) = true ∨ dollarAt s (p + w) = true) := by
  rw [lookAt, List.any_eq_true] at h
  rcases h with ⟨w, hw, hpred⟩
  refine ⟨w, ?_, ?_⟩
  · have := List.mem_range.mp hw
    omega
  · simpa [Bool.or_eq_true] using hpred

theorem valueEnd_ge (s : Str) (j : Nat) : j ≤ valueEnd s j :=
  scanMin_ge _ _ _

theorem valueEnd_sat (s : Str) (j : Nat) (h : j ≤ s.length) :
    lookAt s (valueEnd s j) = true :=
  scanMin_sat _ _ _ ⟨s.length, h, by omega, lookAt_len s⟩

theorem valueEnd_le_of (s : Str) (j b : Nat) (hb : lookAt s b = true) (hjb : j ≤ b)
    (hbs : b ≤ s.length) : valueEnd s j ≤ b :=
  scanMin_le_of_sat _ _ _ _ hb hjb (by omega)

theorem valueEnd_min (s : Str) (j r : Nat) (h1 : j ≤ r) (h2 : r < valueEnd s j) :
    lookAt s r = false :=
  scanMin_min _ _ _ _ h1 h2

theorem claimEnd_ge (s : Str) (j : Nat) : j ≤ claimEnd s j :=
  scanMin_ge _ _ _

theorem claimEnd_sat (s : Str) (j : Nat) (h : j ≤ s.length) :
    claimTermAt s (claimEnd s j) = true ∨ claimEnd s j = s.length := by
  have hp := scanMin_sat (fun q => claimTermAt s q || q == s.length) (s.length + 1 - j) j
    ⟨s.length, h, by omega, by simp⟩
  rw [Bool.or_eq_true] at hp
  rcases hp with hp | hp
  · exact Or.inl hp
  · exact Or.inr (by simpa using hp)

theorem claimEnd_le_of (s : Str) (j b : Nat) (hb : claimTermAt s b = true ∨ b = s.length)
    (hjb : j ≤ b) (hbs : b ≤ s.length) : claimEnd s j ≤ b := by
  apply scanMin_le_of_sat _ _ _ _ _ hjb (by omega)
  rcases hb with hb | hb <;> simp [hb]

theorem claimEnd_le_len (s : Str) (j : Nat) (h : j ≤ s.length) :
    claimEnd s j ≤ s.length :=
  claimEnd_le_of s j s.length (Or.inr rfl) h (Nat.le_refl _)

theorem claimEnd_min (s : Str) (j r : Nat) (h1 : j ≤ r) (h2 : r < claimEnd s j) :
    claimTermAt s r = false ∧ r ≠ s.length := by
  have hp := scanMin_min (fun q => claimTermAt s q || q == s.length) (s.length + 1 - j) j r
    h1 h2
  rw [Bool.or_eq_false_iff] at hp
  refine ⟨hp.1, ?_⟩
  have := hp.2
  simpa using this

theorem matchAt_some (s : Str) (i : Nat) (m : PyMatch) (h : matchAt s i = some m) :
    ∃ L ∈ LABELS_RE, matchesCI L s i = true ∧ s.get? (i + L.length) = some ':' ∧
      m.start = i ∧ m.labelLen = L.length ∧
      m.vstart = i + L.length + 1 + wsRun s (i + L.length + 1) ∧
      m.vend = valueEnd s m.vstart := by
  unfold matchAt at h
  split at h
  · cases h
  · next L heq =>
    have hmem := List.mem_of_find?_eq_some heq
    have hpred := List.find?_some heq
    have h1 : matchesCI L s i = true ∧ (s.get? (i + L.length) == some ':') = true := by
      simpa [Bool.and_eq_true] using hpred
    injection h with h2
    subst h2
    exact ⟨L, hmem, h1.1, by simpa using h1.2, rfl, rfl, rfl, rfl⟩

theorem finditer_mem (s : Str) (m : PyMatch) : ∀ (fuel i : Nat),
    m ∈ finditerAux s i fuel → ∃ i', matchAt s i' = some m := by
  intro fuel
  induction fuel with
  | zero =>
    intro i h
    simp [finditerAux] at h
  | succ fuel ih =>
    intro i h
    rw [finditerAux] at h
    by_cases hlen : s.length < i
    · rw [if_pos hlen] at h
      cases h
    · rw [if_neg hlen] at h
      cases hma : matchAt s i with
      | none =>
        rw [hma] at h
        exact ih (i + 1) h
      | some m2 =>
        rw [hma] at h
        rcases List.mem_cons.mp h with rfl | h2
        · exact ⟨i, hma⟩
        · exact ih _ h2

/-- C5: for every match of `RGX_LABEL`, the label group is one of the ten
recognized labels (case-insensitive) followed by a colon, and the stored
(whitespace-trimmed) value equals the trim of the text extending from just
after the colon up to (but not including) the position given by the
claim's terminator rule (`claimEnd`): the next occurrence of a recognized
label followed by a colon, or of the bare token `Model` or `Version`, or
the end of the string.  The value may span newlines (it is an arbitrary
slice of the input). -/
theorem rgx_label_value_extent (s : Str) (m : PyMatch) (hm : m ∈ py_finditer s) :
    (∃ L ∈ LABELS_RE, matchesCI L s m.start = true ∧ m.labelLen = L.length ∧
      s.get? (m.start + m.labelLen) = some ':') ∧
    pyStrip (valueRaw s m) =
      pyStrip (sliceL s (m.start + m.labelLen + 1)
        (claimEnd s (m.start + m.labelLen + 1))) := by
  rcases finditer_mem s m (s.length + 2) 0 hm with ⟨i, hma⟩
  rcases matchAt_some s i m hma with ⟨L, hLmem, hci, hcolon, hstart, hlen, hvstart, hvend⟩
  subst hstart
  refine ⟨⟨L, hLmem, hci, hlen, by rw [hlen]; exact hcolon⟩, ?_⟩
  rw [hlen]
  have f1 : m.start + L.length < s.length := by
    by_contra hcon
    rw [List.get?_eq_none.mpr (Nat.le_of_not_lt hcon)] at hcolon
    cases hcolon
  have f2 : m.start + L.length + 1 ≤ s.length := by omega
  have f3 : m.vstart = (m.start + L.length + 1) + wsRun s (m.start + L.length + 1) := hvstart
  have f4 : m.start + L.length + 1 ≤ m.vstart := by rw [f3]; omega
  have f5 : m.vstart ≤ s.length := by
    rw [f3]
    have := wsRun_le s (m.start + L.length + 1)
    omega
  have hq_le_len : claimEnd s (m.start + L.length + 1) ≤ s.length :=
    claimEnd_le_len s _ f2
  have hjvend : m.start + L.length + 1 ≤ m.vend :=
    le_trans f4 (by rw [hvend]; exact valueEnd_ge s m.vstart)
  have hA : m.vstart ≤ claimEnd s (m.start + L.length + 1) := by
    by_contra hcon
    push_neg at hcon
    have hrange : m.start + L.length + 1 ≤ claimEnd s (m.start + L.length + 1) :=
      claimEnd_ge s _
    rcases wsRun_space s (m.start + L.length + 1) (claimEnd s (m.start + L.length + 1))
        hrange (by rw [f3] at hcon; omega) with ⟨c, hc, hsp⟩
    rcases claimEnd_sat s (m.start + L.length + 1) f2 with hterm | hlen2
    · have hns := claimTermAt_not_space s _ hterm c hc
      rw [hsp] at hns
      cases hns
    · rw [hlen2, List.get?_eq_none.mpr (Nat.le_refl _)] at hc
      cases hc
  have hB : lookAt s (claimEnd s (m.start + L.length + 1)) = true := by
    rcases claimEnd_sat s (m.start + L.length + 1) f2 with hterm | hlen2
    · exact lookAt_of_term _ _ (by rw [termAt_eq_claimTermAt]; exact hterm)
    · rw [hlen2]
      exact lookAt_len s
  have hC : m.vend ≤ claimEnd s (m.start + L.length + 1) := by
    rw [hvend]
    exact valueEnd_le_of s m.vstart _ hB hA hq_le_len
  have hD : ∀ r, m.vend ≤ r → r < claimEnd s (m.start + L.length + 1) →
      ∃ c, s.get? r = some c ∧ pyIsSpace c = true := by
    intro r hr1 hr2
    have hlookp : lookAt s m.vend = true := by
      rw [hvend]
      exact valueEnd_sat s m.vstart f5
    rcases lookAt_decomp s m.vend hlookp with ⟨w, hw, hterm | hdollar⟩
    · have hterm2 : claimTermAt s (m.vend + w) = true := by
        rw [← termAt_eq_claimTermAt]
        exact hterm
      have hlt : m.vend + w < s.length := claimTermAt_lt_length s _ hterm2
      have hqle : claimEnd s (m.start + L.length + 1) ≤ m.vend + w :=
        claimEnd_le_of s _ (m.vend + w) (Or.inl hterm2) (by omega) (by omega)
      exact wsRun_space s m.vend r hr1 (by omega)
    · have hdec : m.vend + w = s.length ∨
          (m.vend + w + 1 = s.length ∧ s.get? (m.vend + w) = some '\n') := by
        simpa [dollarAt, Bool.or_eq_true, Bool.and_eq_true] using hdollar
      rcases hdec with hd1 | ⟨hd2, hd3⟩
      · exact wsRun_space s m.vend r hr1 (by omega)
      · by_cases hcase : r < m.vend + w
        · exact wsRun_space s m.vend r hr1 (by omega)
        · have hr3 : r = m.vend + w := by omega
          exact ⟨'\n', hr3 ▸ hd3, by decide⟩
  have hws1 : (sliceL s (m.start + L.length + 1) m.vstart).all pyIsSpace = true :=
    sliceL_all_space s _ _ (fun r h1 h2 => wsRun_space s _ r h1 (by rw [f3] at h2; exact h2))
  have hws2 : (sliceL s m.vend (claimEnd s (m.start + L.length + 1))).all pyIsSpace = true :=
    sliceL_all_space s _ _ hD
  have hvr : valueRaw s m = sliceL s m.vstart m.vend := rfl
  have hvv : m.vstart ≤ m.vend := by
    rw [hvend]
    exact valueEnd_ge s m.vstart
  calc pyStrip (valueRaw s m)
      = pyStrip (sliceL s m.vstart m.vend ++
          sliceL s m.vend (claimEnd s (m.start + L.length + 1))) := by
        rw [hvr, pyStrip_append_ws _ _ hws2]
    _ = pyStrip (sliceL s m.vstart (claimEnd s (m.start + L.length + 1))) := by
        rw [← sliceL_append s m.vstart m.vend _ hvv hC]
    _ = pyStrip (sliceL s (m.start + L.length + 1) m.vstart ++
          sliceL s m.vstart (claimEnd s (m.start + L.length + 1))) := by
        rw [pyStrip_ws_append _ _ hws1]
    _ = pyStrip (sliceL s (m.start + L.length + 1)
          (claimEnd s (m.start + L.length + 1))) := by
        rw [← sliceL_append s _ m.vstart _ f4 hA]

/-- Witness for C5 on `"Prompt: a b\nSteps: 3"`: the first match is
`Prompt` with value span `[8, 11)` (`"a b"`), and the claim's terminator
rule gives the same trimmed value. -/
theorem rgx_label_value_extent_witness :
    (⟨0, 6, 8, 11⟩ : PyMatch) ∈ py_finditer "Prompt: a b\nSteps: 3".data ∧
    ((∃ L ∈ LABELS_RE,
        matchesCI L "Prompt: a b\nSteps: 3".data (PyMatch.start ⟨0, 6, 8, 11⟩) = true ∧
        PyMatch.labelLen ⟨0, 6, 8, 11⟩ = L.length ∧
        "Prompt: a b\nSteps: 3".data.get?
          (PyMatch.start ⟨0, 6, 8, 11⟩ + PyMatch.labelLen ⟨0, 6, 8, 11⟩) = some ':') ∧
      pyStrip (valueRaw "Prompt: a b\nSteps: 3".data ⟨0, 6, 8, 11⟩) =
        pyStrip (sliceL "Prompt: a b\nSteps: 3".data
          (PyMatch.start ⟨0, 6, 8, 11⟩ + PyMatch.labelLen ⟨0, 6, 8, 11⟩ + 1)
          (claimEnd "Prompt: a b\nSteps: 3".data
            (PyMatch.start ⟨0, 6, 8, 11⟩ + PyMatch.labelLen ⟨0, 6, 8, 11⟩ + 1)))) :=
  ⟨by decide, rgx_label_value_extent "Prompt: a b\nSteps: 3".data ⟨0, 6, 8, 11⟩ (by decide)⟩
